import Mathlib

/-!
Verification of the WageWise pay-schedule calculator and wage-tracker state
module (src/context/wageTracker.tsx).

Timeline model: an instant is the number of milliseconds since the Unix
epoch, as an unbounded integer.  The calling environment's local time zone
is modelled as a fixed zero offset with 24-hour days (no DST), so civil
date/time construction and extraction are plain arithmetic over a proleptic
Gregorian calendar.  JavaScript Date normalization (out-of-range month/day
fields rolling over) is exact millisecond/field arithmetic in this model,
matching ECMA-262 MakeDay/MakeTime.
-/

namespace WageWise

def msPerMinute : Int := 60000

def msPerHour : Int := 3600000

def msPerDay : Int := 86400000

/-- Day number of the instant: floor of t / msPerDay (day 0 starts at the epoch). -/
def dayNumber (t : Int) : Int := t / msPerDay

/-- Milliseconds since local midnight. -/
def timeOfDayMs (t : Int) : Int := t % msPerDay

/-- JS Date.prototype.getDay: weekday index, Sunday = 0.  Day 0 (1970-01-01) was a Thursday. -/
def getDay (t : Int) : Int := (dayNumber t + 4) % 7

/-- JS Date.prototype.getHours. -/
def getHours (t : Int) : Int := timeOfDayMs t / msPerHour

/-- JS Date.prototype.getMinutes. -/
def getMinutes (t : Int) : Int := timeOfDayMs t % msPerHour / msPerMinute

/-! ### Proleptic Gregorian calendar (model of the JS Date library) -/

/-- Gregorian leap-year rule. -/
def isLeap (y : Int) : Prop := y % 4 = 0 ∧ (y % 100 ≠ 0 ∨ y % 400 = 0)

instance (y : Int) : Decidable (isLeap y) :=
  inferInstanceAs (Decidable (y % 4 = 0 ∧ (y % 100 ≠ 0 ∨ y % 400 = 0)))

/-- Length of month m (0-based: January = 0) of year y. -/
def daysInMonth (y m : Int) : Int :=
  if m = 1 then (if isLeap y then 29 else 28)
  else if m = 3 ∨ m = 5 ∨ m = 8 ∨ m = 10 then 30
  else 31

/-- Days from January 1 to the first day of month m in a non-leap year. -/
def monthStartBase (m : Int) : Int :=
  if m ≤ 0 then 0
  else if m = 1 then 31
  else if m = 2 then 59
  else if m = 3 then 90
  else if m = 4 then 120
  else if m = 5 then 151
  else if m = 6 then 181
  else if m = 7 then 212
  else if m = 8 then 243
  else if m = 9 then 273
  else if m = 10 then 304
  else if m = 11 then 334
  else 365

/-- Days from January 1 of year y to the first day of month m of year y. -/
def monthStart (y m : Int) : Int :=
  monthStartBase m + (if 2 ≤ m ∧ isLeap y then 1 else 0)

/-- Days from 0000-01-01 to January 1 of year y (proleptic Gregorian). -/
def daysToYear (y : Int) : Int :=
  365 * y + (y + 3) / 4 - (y + 99) / 100 + (y + 399) / 400

/-- Days from 0000-01-01 to the epoch 1970-01-01. -/
def epochShiftDays : Int := 719528

/-- A civil date: 0-based month, 1-based day. -/
structure CivilDate where
  year : Int
  month : Int
  day : Int
  deriving DecidableEq

/-- Day number (days since the epoch) of a civil date; linear in the day field,
so out-of-range day values normalize exactly as in JS Date. -/
def dayNumberFromCivil (c : CivilDate) : Int :=
  daysToYear c.year + monthStart c.year c.month + (c.day - 1) - epochShiftDays

/-- The triple denotes an actual calendar date. -/
def ValidCivil (c : CivilDate) : Prop :=
  0 ≤ c.month ∧ c.month ≤ 11 ∧ 1 ≤ c.day ∧ c.day ≤ daysInMonth c.year c.month

instance (c : CivilDate) : Decidable (ValidCivil c) :=
  inferInstanceAs (Decidable (0 ≤ c.month ∧ c.month ≤ 11 ∧ 1 ≤ c.day ∧ c.day ≤ daysInMonth c.year c.month))

def epochCivil : CivilDate := ⟨1970, 0, 1⟩

/-- The next calendar day. -/
def civilSucc (c : CivilDate) : CivilDate :=
  if c.day < daysInMonth c.year c.month then ⟨c.year, c.month, c.day + 1⟩
  else if c.month < 11 then ⟨c.year, c.month + 1, 1⟩
  else ⟨c.year + 1, 0, 1⟩

/-- The previous calendar day. -/
def civilPred (c : CivilDate) : CivilDate :=
  if 1 < c.day then ⟨c.year, c.month, c.day - 1⟩
  else if 0 < c.month then ⟨c.year, c.month - 1, daysInMonth c.year (c.month - 1)⟩
  else ⟨c.year - 1, 11, 31⟩

/-- Civil date of a day number, by stepping from the epoch. -/
def civilFromDay (z : Int) : CivilDate :=
  if 0 ≤ z then civilSucc^[z.toNat] epochCivil else civilPred^[(-z).toNat] epochCivil

/-- JS Date.prototype.getFullYear (local, fixed-offset model). -/
def getFullYear (t : Int) : Int := (civilFromDay (dayNumber t)).year

/-- JS Date.prototype.getMonth (0-based). -/
def getMonth (t : Int) : Int := (civilFromDay (dayNumber t)).month

/-- JS Date.prototype.getDate (day of month, 1-based). -/
def getDate (t : Int) : Int := (civilFromDay (dayNumber t)).day

/-- JS `new Date(year, monthZero, day)` at local midnight: month overflow is
carried into the year, day overflow is exact day arithmetic. -/
def mkDate (year monthZero day : Int) : Int :=
  msPerDay * dayNumberFromCivil ⟨year + monthZero / 12, monthZero % 12, day⟩

/-- Number of days of the (possibly overflowing) month m of year y. -/
def lastDayOfMonth (y m : Int) : Int := daysInMonth (y + m / 12) (m % 12)

/-! ### Calendar facts -/

theorem daysInMonth_bounds (y m : Int) : 28 ≤ daysInMonth y m ∧ daysInMonth y m ≤ 31 := by
  unfold daysInMonth
  split_ifs <;> omega

theorem daysInMonth_eleven (y : Int) : daysInMonth y 11 = 31 := by
  norm_num [daysInMonth]

theorem monthStart_zero (y : Int) : monthStart y 0 = 0 := by
  norm_num [monthStart, monthStartBase]

theorem monthStart_eleven (y : Int) : monthStart y 11 = 334 + (if isLeap y then 1 else 0) := by
  by_cases h : isLeap y <;> simp [monthStart, monthStartBase, h]

theorem monthStart_succ (y m : Int) (h0 : 0 ≤ m) (h1 : m ≤ 11) :
    monthStart y (m + 1) = monthStart y m + daysInMonth y m := by
  interval_cases m <;>
    simp only [monthStart, monthStartBase, daysInMonth] <;>
      norm_num <;> split_ifs <;> omega

theorem monthStart_nonneg (y m : Int) (h0 : 0 ≤ m) (h1 : m ≤ 12) : 0 ≤ monthStart y m := by
  interval_cases m <;>
    simp only [monthStart, monthStartBase] <;>
      norm_num <;> split_ifs <;> omega

theorem monthStart_le_succ (y m : Int) (h0 : 0 ≤ m) (h1 : m ≤ 11) :
    monthStart y m ≤ monthStart y (m + 1) := by
  have h := monthStart_succ y m h0 h1
  have hb := daysInMonth_bounds y m
  omega

theorem monthStart_mono (y a b : Int) (h0 : 0 ≤ a) (h : a ≤ b) (hb12 : b ≤ 12) :
    monthStart y a ≤ monthStart y b := by
  have H : ∀ n, a ≤ n → (n ≤ 12 → monthStart y a ≤ monthStart y n) := by
    refine Int.le_induction ?_ ?_
    · intro _
      exact le_refl _
    · intro n hn ih hn12
      have h1 := monthStart_le_succ y n (by omega) (by omega)
      exact le_trans (ih (by omega)) h1
  exact H b h hb12

theorem daysToYear_succ (y : Int) :
    daysToYear (y + 1) = daysToYear y + (if isLeap y then 366 else 365) := by
  by_cases h : isLeap y <;> simp only [h, if_true, if_false] <;>
    unfold daysToYear <;> unfold isLeap at h <;> omega

theorem daysToYear_strictMono : StrictMono daysToYear := by
  apply strictMono_int_of_lt_succ
  intro y
  rw [daysToYear_succ]
  split <;> omega

theorem monthStart_upper (y m : Int) (h0 : 0 ≤ m) (h1 : m ≤ 11) :
    monthStart y m + daysInMonth y m ≤ 365 + (if isLeap y then 1 else 0) := by
  interval_cases m <;>
    simp only [monthStart, monthStartBase, daysInMonth] <;>
      norm_num <;> split_ifs <;> omega

/-- Unfolding lemma for the day number of a literal civil triple. -/
theorem dayNumberFromCivil_mk (y m d : Int) :
    dayNumberFromCivil ⟨y, m, d⟩ =
      daysToYear y + monthStart y m + (d - 1) - epochShiftDays := rfl

/-- Unfolding lemma for validity of a literal civil triple. -/
theorem validCivil_mk (y m d : Int) :
    ValidCivil ⟨y, m, d⟩ ↔ (0 ≤ m ∧ m ≤ 11 ∧ 1 ≤ d ∧ d ≤ daysInMonth y m) := Iff.rfl

theorem dayNumberFromCivil_bounds (c : CivilDate) (hc : ValidCivil c) :
    daysToYear c.year ≤ dayNumberFromCivil c + epochShiftDays ∧
      dayNumberFromCivil c + epochShiftDays < daysToYear (c.year + 1) := by
  obtain ⟨h0, h1, h2, h3⟩ := hc
  have hns := monthStart_nonneg c.year c.month h0 (by omega)
  have hup := monthStart_upper c.year c.month h0 h1
  have hstep := daysToYear_succ c.year
  unfold dayNumberFromCivil
  constructor
  · omega
  · split_ifs at hup hstep <;> omega

theorem civilSucc_valid_dayNumber (c : CivilDate) (hc : ValidCivil c) :
    ValidCivil (civilSucc c) ∧ dayNumberFromCivil (civilSucc c) = dayNumberFromCivil c + 1 := by
  obtain ⟨h0, h1, h2, h3⟩ := hc
  unfold civilSucc
  split_ifs with hd hm
  · rw [validCivil_mk, dayNumberFromCivil_mk]
    unfold dayNumberFromCivil
    exact ⟨⟨h0, h1, by omega, by omega⟩, by omega⟩
  · have hsucc := monthStart_succ c.year c.month h0 h1
    have hb := daysInMonth_bounds c.year (c.month + 1)
    rw [validCivil_mk, dayNumberFromCivil_mk]
    unfold dayNumberFromCivil
    exact ⟨⟨by omega, by omega, by omega, by omega⟩, by omega⟩
  · have h11 : c.month = 11 := by omega
    have hstep := daysToYear_succ c.year
    have hms := monthStart_eleven c.year
    have hmz := monthStart_zero (c.year + 1)
    have h31 := daysInMonth_eleven c.year
    have hb0 := daysInMonth_bounds (c.year + 1) 0
    rw [validCivil_mk, dayNumberFromCivil_mk]
    unfold dayNumberFromCivil
    rw [h11] at h3 hd ⊢
    exact ⟨⟨by omega, by omega, by omega, by omega⟩,
      by split_ifs at hstep hms <;> omega⟩

theorem civilPred_valid_dayNumber (c : CivilDate) (hc : ValidCivil c) :
    ValidCivil (civilPred c) ∧ dayNumberFromCivil (civilPred c) = dayNumberFromCivil c - 1 := by
  obtain ⟨h0, h1, h2, h3⟩ := hc
  unfold civilPred
  split_ifs with hd hm
  · rw [validCivil_mk, dayNumberFromCivil_mk]
    unfold dayNumberFromCivil
    exact ⟨⟨h0, h1, by omega, by omega⟩, by omega⟩
  · have hsucc := monthStart_succ c.year (c.month - 1) (by omega) (by omega)
    have hm1 : c.month - 1 + 1 = c.month := by omega
    rw [hm1] at hsucc
    have hb := daysInMonth_bounds c.year (c.month - 1)
    rw [validCivil_mk, dayNumberFromCivil_mk]
    unfold dayNumberFromCivil
    exact ⟨⟨by omega, by omega, by omega, by omega⟩, by omega⟩
  · have hm0 : c.month = 0 := by omega
    have hstep := daysToYear_succ (c.year - 1)
    have hy : c.year - 1 + 1 = c.year := by omega
    rw [hy] at hstep
    have hms := monthStart_eleven (c.year - 1)
    have hmz := monthStart_zero c.year
    have h31 := daysInMonth_eleven (c.year - 1)
    rw [validCivil_mk, dayNumberFromCivil_mk]
    unfold dayNumberFromCivil
    rw [hm0] at h3 ⊢
    exact ⟨⟨by omega, by omega, by omega, by omega⟩,
      by split_ifs at hstep hms <;> omega⟩

theorem civilSucc_iter (n : ℕ) :
    ValidCivil (civilSucc^[n] epochCivil) ∧
      dayNumberFromCivil (civilSucc^[n] epochCivil) = (n : Int) := by
  induction n with
  | zero => exact ⟨by decide, by decide⟩
  | succ k ih =>
      rw [Function.iterate_succ_apply']
      have h := civilSucc_valid_dayNumber _ ih.1
      exact ⟨h.1, by rw [h.2, ih.2]; push_cast; ring⟩

theorem civilPred_iter (n : ℕ) :
    ValidCivil (civilPred^[n] epochCivil) ∧
      dayNumberFromCivil (civilPred^[n] epochCivil) = -(n : Int) := by
  induction n with
  | zero => exact ⟨by decide, by decide⟩
  | succ k ih =>
      rw [Function.iterate_succ_apply']
      have h := civilPred_valid_dayNumber _ ih.1
      exact ⟨h.1, by rw [h.2, ih.2]; push_cast; ring⟩

theorem civilFromDay_spec (z : Int) :
    ValidCivil (civilFromDay z) ∧ dayNumberFromCivil (civilFromDay z) = z := by
  unfold civilFromDay
  split_ifs with h
  · have := civilSucc_iter z.toNat
    rw [Int.toNat_of_nonneg h] at this
    exact this
  · have := civilPred_iter (-z).toNat
    rw [Int.toNat_of_nonneg (by omega)] at this
    refine ⟨this.1, by rw [this.2]; omega⟩

theorem monthday_lt (y a b da db : Int) (ha0 : 0 ≤ a) (hb1 : b ≤ 11)
    (hda2 : da ≤ daysInMonth y a) (hdb : 1 ≤ db) (hab : a < b) :
    monthStart y a + da < monthStart y b + db := by
  have h1 := monthStart_succ y a ha0 (by omega)
  have h2 := monthStart_mono y (a + 1) b (by omega) (by omega) (by omega)
  omega

theorem civil_unique (c d : CivilDate) (hc : ValidCivil c) (hd : ValidCivil d)
    (h : dayNumberFromCivil c = dayNumberFromCivil d) : c = d := by
  have hbc := dayNumberFromCivil_bounds c hc
  have hbd := dayNumberFromCivil_bounds d hd
  have hy : c.year = d.year := by
    rcases lt_trichotomy c.year d.year with hlt | heq | hgt
    · have := daysToYear_strictMono.monotone (show c.year + 1 ≤ d.year by omega)
      omega
    · exact heq
    · have := daysToYear_strictMono.monotone (show d.year + 1 ≤ c.year by omega)
      omega
  obtain ⟨hc0, hc1, hc2, hc3⟩ := hc
  obtain ⟨hd0, hd1, hd2, hd3⟩ := hd
  rw [hy] at hc3
  have hnum : monthStart d.year c.month + c.day = monthStart d.year d.month + d.day := by
    unfold dayNumberFromCivil at h
    rw [hy] at h
    omega
  have hm : c.month = d.month := by
    rcases lt_trichotomy c.month d.month with hlt | heq | hgt
    · have := monthday_lt d.year c.month d.month c.day d.day hc0 hd1 hc3 hd2 hlt
      omega
    · exact heq
    · have := monthday_lt d.year d.month c.month d.day c.day hd0 hc1 hd3 hc2 hgt
      omega
  have hdday : c.day = d.day := by
    rw [hm] at hnum
    omega
  obtain ⟨cy, cm, cd⟩ := c
  obtain ⟨dy, dm, dd⟩ := d
  simp only [CivilDate.mk.injEq]
  exact ⟨hy, hm, hdday⟩

theorem civilFromDay_dayNumberFromCivil (c : CivilDate) (hc : ValidCivil c) :
    civilFromDay (dayNumberFromCivil c) = c := by
  have h := civilFromDay_spec (dayNumberFromCivil c)
  exact civil_unique _ _ h.1 hc h.2

theorem dayNumber_mkDate (y m d : Int) :
    dayNumber (mkDate y m d) = dayNumberFromCivil ⟨y + m / 12, m % 12, d⟩ := by
  unfold dayNumber mkDate msPerDay
  omega

/-- `new Date(y, m, 0).getDate()` is the length of the month before month m:
the source's idiom for the number of days in a month. -/
theorem getDate_mkDate_zero (y m : Int) :
    getDate (mkDate y m 0) = lastDayOfMonth y (m - 1) := by
  have hdb := daysInMonth_bounds (y + m / 12) (m % 12)
  have hvalid : ValidCivil ⟨y + m / 12, m % 12, 1⟩ := by
    rw [validCivil_mk]
    exact ⟨by omega, by omega, le_refl 1, by omega⟩
  have hpred := civilPred_valid_dayNumber _ hvalid
  have hday : dayNumber (mkDate y m 0) = dayNumberFromCivil (civilPred ⟨y + m / 12, m % 12, 1⟩) := by
    rw [dayNumber_mkDate, hpred.2, dayNumberFromCivil_mk, dayNumberFromCivil_mk]
    ring
  unfold getDate
  rw [hday, civilFromDay_dayNumberFromCivil _ hpred.1]
  by_cases hm : 0 < m % 12
  · have hcp : civilPred ⟨y + m / 12, m % 12, 1⟩ =
        ⟨y + m / 12, m % 12 - 1, daysInMonth (y + m / 12) (m % 12 - 1)⟩ := by
      simp [civilPred, hm]
    rw [hcp]
    unfold lastDayOfMonth
    rw [show y + (m - 1) / 12 = y + m / 12 by omega,
      show (m - 1) % 12 = m % 12 - 1 by omega]
  · have hcp : civilPred ⟨y + m / 12, m % 12, 1⟩ = ⟨y + m / 12 - 1, 11, 31⟩ := by
      simp [civilPred, hm]
    rw [hcp]
    unfold lastDayOfMonth
    rw [show y + (m - 1) / 12 = y + m / 12 - 1 by omega,
      show (m - 1) % 12 = 11 by omega]
    rw [daysInMonth_eleven]

/-- The first days of the following month lie strictly after every day of the
current month. -/
theorem dayNumberFromCivil_next_month (c : CivilDate) (hc : ValidCivil c) (nd : Int)
    (hnd : 1 ≤ nd) :
    dayNumberFromCivil c <
      dayNumberFromCivil ⟨c.year + (c.month + 1) / 12, (c.month + 1) % 12, nd⟩ := by
  obtain ⟨h0, h1, h2, h3⟩ := hc
  by_cases hm : c.month ≤ 10
  · rw [show (c.month + 1) / 12 = 0 by omega, show (c.month + 1) % 12 = c.month + 1 by omega,
      add_zero]
    simp only [dayNumberFromCivil]
    have hsucc := monthStart_succ c.year c.month h0 h1
    omega
  · have h11 : c.month = 11 := by omega
    rw [show (c.month + 1) / 12 = 1 by omega, show (c.month + 1) % 12 = 0 by omega]
    simp only [dayNumberFromCivil]
    have hstep := daysToYear_succ c.year
    have hms := monthStart_eleven c.year
    have hmz := monthStart_zero (c.year + 1)
    have h31 := daysInMonth_eleven c.year
    rw [h11] at h3 ⊢
    split_ifs at hstep hms <;> omega

/-! ### Embedding of src/context/wageTracker.tsx -/

/-- The seven weekday names of the DOW table. -/
inductive DayOfWeek where
  | sunday
  | monday
  | tuesday
  | wednesday
  | thursday
  | friday
  | saturday
  deriving DecidableEq

/-- DOW.indexOf: position of a weekday name in the DOW table. -/
def dayNameToIndex : DayOfWeek → Int
  | .sunday => 0
  | .monday => 1
  | .tuesday => 2
  | .wednesday => 3
  | .thursday => 4
  | .friday => 5
  | .saturday => 6

inductive PayFrequency where
  | weekly
  | biweekly
  | monthly
  deriving DecidableEq

/-- The Schedule record of types/wageTracker.ts; absent optional fields are none. -/
structure Schedule where
  payFrequency : PayFrequency
  dayOfWeek : Option DayOfWeek
  dayOfMonth : Option Int
  biweeklyAnchorDate : Option Int
  hour : Option Int
  minute : Option Int
  deriving DecidableEq

/-- clampDayOfMonth: the last valid day of the month is read off
`new Date(year, monthZero + 1, 0).getDate()`. -/
def clampDayOfMonth (year monthZero dom : Int) : Int :=
  let lastDay := getDate (mkDate year (monthZero + 1) 0)
  max 1 (min lastDay dom)

/-- Milliseconds after local midnight selected by `setHours(hour ?? 9, minute ?? 0, 0, 0)`. -/
def hmOffset (hour minute : Option Int) : Int :=
  hour.getD 9 * msPerHour + minute.getD 0 * msPerMinute

/-- atTime: same local day, time-of-day set to hour:minute (defaults 9:00).
JS setHours arithmetic is exact millisecond arithmetic. -/
def atTime (t : Int) (hour minute : Option Int) : Int :=
  msPerDay * dayNumber t + hmOffset hour minute

/-- addDays: `setDate(getDate() + n)` advances exactly n days in a fixed-offset zone. -/
def addDays (t n : Int) : Int := t + n * msPerDay

def nextWeekly (t : Int) (weekday : DayOfWeek) (hour minute : Option Int) : Int :=
  let base := atTime t hour minute
  let targetIdx := dayNameToIndex weekday
  let todayIdx := getDay base
  let delta0 := targetIdx - todayIdx
  let delta := if delta0 ≤ 0 then delta0 + 7 else delta0
  atTime (addDays base delta) hour minute

def nextMonthly (t : Int) (dom : Int) (hour minute : Option Int) : Int :=
  let base := atTime t hour minute
  let safeDom := clampDayOfMonth (getFullYear base) (getMonth base) dom
  let candidate := atTime (mkDate (getFullYear base) (getMonth base) safeDom) hour minute
  if base < candidate then candidate
  else
    let nextMonthDom := clampDayOfMonth (getFullYear base) (getMonth base + 1) dom
    atTime (mkDate (getFullYear base) (getMonth base + 1) nextMonthDom) hour minute

def MS_14D : Int := 14 * 24 * 60 * 60 * 1000

/-- nextBiweekly; `Math.ceil(diff / MS_14D)` on a positive integer diff is
exact integer ceiling division. -/
def nextBiweekly (t : Int) (schedule : Schedule) : Int :=
  let hour := schedule.hour.getD 9
  let minute := schedule.minute.getD 0
  match schedule.biweeklyAnchorDate with
  | some a =>
      if 0 < a then
        let anchor := atTime a (some hour) (some minute)
        let base := atTime t (some hour) (some minute)
        if base ≤ anchor then anchor
        else
          let diff := base - anchor
          let k := (diff + MS_14D - 1) / MS_14D
          anchor + k * MS_14D
      else nextWeekly t (schedule.dayOfWeek.getD .friday) (some hour) (some minute)
  | none => nextWeekly t (schedule.dayOfWeek.getD .friday) (some hour) (some minute)

def computeNextPayDateForSchedule (schedule : Option Schedule) (t : Int) : Option Int :=
  match schedule with
  | none => none
  | some s =>
      match s.payFrequency with
      | .monthly => some (nextMonthly t (s.dayOfMonth.getD 1) s.hour s.minute)
      | .weekly => some (nextWeekly t (s.dayOfWeek.getD .friday) s.hour s.minute)
      | .biweekly => some (nextBiweekly t s)

/-! ### Wage-tracker state: employers, paydays, derived values -/

/-- Per-payday breakdown line item; `amount` is none when not a number. -/
structure PayBreakdownItem where
  kind : String
  label : String
  amount : Option Int
  deriving DecidableEq

/-- A payday entry; optional fields model values that are absent or not numbers. -/
structure PayDay where
  date : Int
  breakdown : Option (List PayBreakdownItem)
  gross : Option Int
  taxes : Option Int
  net : Option Int
  deriving DecidableEq

inductive PayBase where
  | hourly
  | salary
  deriving DecidableEq

structure PayStructure where
  base : PayBase
  defaultRate : Option Int
  extras : List (String × String)
  deriving DecidableEq

structure Employer where
  id : String
  name : String
  color : Option String
  schedule : Schedule
  payStructure : PayStructure
  history : List PayDay
  deriving DecidableEq

/-- sortHistory: stable ascending sort by the date field
(`[...h].sort((a, b) => a.date - b.date)`). -/
def sortHistory (h : List PayDay) : List PayDay :=
  List.insertionSort (fun a b => a.date ≤ b.date) h

def getDefaultPayStructure : PayStructure := ⟨.hourly, none, []⟩

/-- deriveTotalsFromBreakdown: recompute gross from the breakdown when present,
default taxes to 0, and net to gross - taxes when missing. -/
def deriveTotalsFromBreakdown (p : PayDay) : PayDay :=
  let gross := match p.breakdown with
    | some l => l.foldl (fun s b => s + b.amount.getD 0) 0
    | none => p.gross.getD 0
  let taxes := p.taxes.getD 0
  let net := match p.net with
    | some n => n
    | none => gross - taxes
  { p with gross := some gross, taxes := some taxes, net := some net }

/-- Argument of addEmployer: an employer without history, plus an optional history.
payStructure is optional because the source defaults it when missing. -/
structure EmployerInput where
  id : String
  name : String
  color : Option String
  schedule : Schedule
  payStructure : Option PayStructure
  history : Option (List PayDay)
  deriving DecidableEq

def addEmployer (es : List Employer) (emp : EmployerInput) : List Employer :=
  es ++ [⟨emp.id, emp.name, emp.color, emp.schedule,
    emp.payStructure.getD getDefaultPayStructure,
    sortHistory ((emp.history.getD []).map deriveTotalsFromBreakdown)⟩]

/-- Partial Schedule: an outer none is an absent key, `some none` a key set to
undefined (both occur under the object-spread semantics). -/
structure SchedulePatch where
  payFrequency : Option PayFrequency
  dayOfWeek : Option (Option DayOfWeek)
  dayOfMonth : Option (Option Int)
  biweeklyAnchorDate : Option (Option Int)
  hour : Option (Option Int)
  minute : Option (Option Int)
  deriving DecidableEq

/-- Object spread `{ ...e.schedule, ...patch }`. -/
def mergeSchedule (e : Schedule) (p : SchedulePatch) : Schedule :=
  ⟨p.payFrequency.getD e.payFrequency, p.dayOfWeek.getD e.dayOfWeek,
    p.dayOfMonth.getD e.dayOfMonth, p.biweeklyAnchorDate.getD e.biweeklyAnchorDate,
    p.hour.getD e.hour, p.minute.getD e.minute⟩

structure PayStructurePatch where
  base : Option PayBase
  defaultRate : Option (Option Int)
  extras : Option (List (String × String))
  deriving DecidableEq

/-- `{ ...e.payStructure, ...(patch.payStructure ?? {}), extras: patch.payStructure?.extras ?? e.payStructure.extras }`. -/
def mergePayStructure (e : PayStructure) (p : PayStructurePatch) : PayStructure :=
  ⟨p.base.getD e.base, p.defaultRate.getD e.defaultRate, p.extras.getD e.extras⟩

/-- Partial<Omit<Employer, "id">>. -/
structure EmployerPatch where
  name : Option String
  color : Option (Option String)
  schedule : Option SchedulePatch
  payStructure : Option PayStructurePatch
  history : Option (List PayDay)
  deriving DecidableEq

def updateEmployer (es : List Employer) (id : String) (patch : EmployerPatch) : List Employer :=
  es.map fun e =>
    if e.id = id then
      { e with
        name := patch.name.getD e.name
        color := patch.color.getD e.color
        schedule :=
          match patch.schedule with
          | some sp => mergeSchedule e.schedule sp
          | none => e.schedule
        payStructure :=
          match patch.payStructure with
          | some pp => mergePayStructure e.payStructure pp
          | none => e.payStructure
        history :=
          match patch.history with
          | some h => sortHistory (h.map deriveTotalsFromBreakdown)
          | none => e.history }
    else e

def deleteEmployer (es : List Employer) (id : String) : List Employer :=
  es.filter fun e => e.id ≠ id

def mutateEmployer (es : List Employer) (id : String) (f : Employer → Employer) :
    List Employer :=
  es.map fun e => if e.id = id then f e else e

def addPayday (es : List Employer) (employerId : String) (entry : PayDay)
    (replaceIfSameDate : Bool) : List Employer :=
  let normalized := deriveTotalsFromBreakdown entry
  mutateEmployer es employerId fun e =>
    let filtered :=
      if replaceIfSameDate then e.history.filter (fun p => p.date ≠ normalized.date)
      else e.history
    { e with history := sortHistory (filtered ++ [normalized]) }

def upsertPayday (es : List Employer) (employerId : String) (entry : PayDay) :
    List Employer :=
  addPayday es employerId entry true

def deletePaydayByDate (es : List Employer) (employerId : String) (dateMs : Int) :
    List Employer :=
  mutateEmployer es employerId fun e =>
    { e with history := e.history.filter (fun p => p.date ≠ dateMs) }

def setEmployerHistory (es : List Employer) (employerId : String) (nextHist : List PayDay) :
    List Employer :=
  mutateEmployer es employerId fun e =>
    { e with history := sortHistory (nextHist.map deriveTotalsFromBreakdown) }

/-- The derived nextPayDates value: per-employer next payday (a Date is always
truthy, so every computed date is kept), sorted ascending by instant. -/
def nextPayDates (es : List Employer) (now : Int) : List (String × Int) :=
  let arr := es.filterMap fun e =>
    (computeNextPayDateForSchedule (some e.schedule) now).map fun d => (e.id, d)
  List.insertionSort (fun a b => a.2 ≤ b.2) arr

def nextSoonest (es : List Employer) (now : Int) : Option (String × Int) :=
  (nextPayDates es now).head?

/-! ### Well-formedness of optional time fields (ranges of the data model) -/

/-- An hour field is absent or a 24-hour clock value. -/
def HourWF (h : Option Int) : Prop :=
  match h with
  | none => True
  | some x => 0 ≤ x ∧ x < 24

instance (h : Option Int) : Decidable (HourWF h) :=
  match h with
  | none => isTrue trivial
  | some x => inferInstanceAs (Decidable (0 ≤ x ∧ x < 24))

/-- A minute field is absent or in 0..59. -/
def MinuteWF (m : Option Int) : Prop :=
  match m with
  | none => True
  | some x => 0 ≤ x ∧ x < 60

instance (m : Option Int) : Decidable (MinuteWF m) :=
  match m with
  | none => isTrue trivial
  | some x => inferInstanceAs (Decidable (0 ≤ x ∧ x < 60))

/-- The schedule's time-of-day fields are in the documented ranges. -/
def ScheduleWF (s : Schedule) : Prop := HourWF s.hour ∧ MinuteWF s.minute

instance (s : Schedule) : Decidable (ScheduleWF s) :=
  inferInstanceAs (Decidable (HourWF s.hour ∧ MinuteWF s.minute))

/-! ### Spec-side descriptions (transcribed from spec.md §4) -/

/-- Spec §4 weekly: delta = target - referenceWeekdayIndex, plus 7 when delta ≤ 0. -/
def weeklySpecDelta (weekday : DayOfWeek) (t : Int) : Int :=
  let d0 := dayNameToIndex weekday - getDay t
  if d0 ≤ 0 then d0 + 7 else d0

/-- Spec §4 monthly: candidate at the day-of-month clamped to the last valid day
of the reference month, else the re-clamped candidate of the next month. -/
def monthlySpec (s : Schedule) (t : Int) : Int :=
  let dom := s.dayOfMonth.getD 1
  let base := atTime t s.hour s.minute
  let y := getFullYear base
  let mz := getMonth base
  let c1 := atTime (mkDate y mz (min (lastDayOfMonth y mz) dom)) s.hour s.minute
  let c2 := atTime (mkDate y (mz + 1) (min (lastDayOfMonth y (mz + 1)) dom)) s.hour s.minute
  if base < c1 then c1 else c2

/-! ### Time arithmetic helper lemmas -/

theorem hmOffset_some_getD (h m : Option Int) :
    hmOffset (some (h.getD 9)) (some (m.getD 0)) = hmOffset h m := by
  cases h <;> cases m <;> rfl

theorem hmOffset_bounds (h m : Option Int) (hh : HourWF h) (hm : MinuteWF m) :
    0 ≤ hmOffset h m ∧ hmOffset h m < msPerDay := by
  cases h <;> cases m <;>
    simp only [HourWF, MinuteWF] at hh hm <;>
      unfold hmOffset msPerHour msPerMinute msPerDay <;> simp only [Option.getD] <;> omega

theorem dayNumber_atTime (t : Int) (h m : Option Int) (h0 : 0 ≤ hmOffset h m)
    (h1 : hmOffset h m < msPerDay) : dayNumber (atTime t h m) = dayNumber t := by
  unfold msPerDay at h1
  simp only [atTime, dayNumber, msPerDay]
  omega

theorem getDay_atTime (t : Int) (h m : Option Int) (h0 : 0 ≤ hmOffset h m)
    (h1 : hmOffset h m < msPerDay) : getDay (atTime t h m) = getDay t := by
  unfold getDay
  rw [dayNumber_atTime t h m h0 h1]

theorem atTime_addDays_atTime (t n : Int) (h m : Option Int) (h0 : 0 ≤ hmOffset h m)
    (h1 : hmOffset h m < msPerDay) :
    atTime (addDays (atTime t h m) n) h m = atTime t h m + n * msPerDay := by
  unfold msPerDay at h1
  simp only [atTime, addDays, dayNumber, msPerDay]
  omega

theorem timeOfDayMs_atTime (t : Int) (h m : Option Int) (h0 : 0 ≤ hmOffset h m)
    (h1 : hmOffset h m < msPerDay) : timeOfDayMs (atTime t h m) = hmOffset h m := by
  unfold msPerDay at h1
  simp only [timeOfDayMs, atTime, dayNumber, msPerDay]
  omega

theorem dayNameToIndex_bounds (wd : DayOfWeek) :
    0 ≤ dayNameToIndex wd ∧ dayNameToIndex wd ≤ 6 := by
  cases wd <;> simp [dayNameToIndex]

theorem getDay_bounds (t : Int) : 0 ≤ getDay t ∧ getDay t < 7 := by
  unfold getDay
  omega

/-- The weekly computation adds weeklySpecDelta days to the normalized reference,
and the delta is between 1 and 7. -/
theorem nextWeekly_spec (t : Int) (wd : DayOfWeek) (h m : Option Int)
    (hh : HourWF h) (hmm : MinuteWF m) :
    nextWeekly t wd h m = addDays (atTime t h m) (weeklySpecDelta wd t) ∧
      1 ≤ weeklySpecDelta wd t ∧ weeklySpecDelta wd t ≤ 7 := by
  obtain ⟨h0, h1⟩ := hmOffset_bounds h m hh hmm
  have e1 : nextWeekly t wd h m =
      atTime (addDays (atTime t h m)
        (if dayNameToIndex wd - getDay (atTime t h m) ≤ 0 then
          dayNameToIndex wd - getDay (atTime t h m) + 7
        else dayNameToIndex wd - getDay (atTime t h m))) h m := rfl
  rw [e1, getDay_atTime t h m h0 h1, atTime_addDays_atTime t _ h m h0 h1]
  have hwd := dayNameToIndex_bounds wd
  have hgd := getDay_bounds t
  simp only [weeklySpecDelta, addDays]
  refine ⟨trivial, ?_, ?_⟩ <;> split <;> omega

/-- The weekly result is strictly after the raw reference instant. -/
theorem nextWeekly_gt (t : Int) (wd : DayOfWeek) (h m : Option Int)
    (hh : HourWF h) (hmm : MinuteWF m) : t < nextWeekly t wd h m := by
  obtain ⟨he, hd1, hd7⟩ := nextWeekly_spec t wd h m hh hmm
  obtain ⟨h0, h1⟩ := hmOffset_bounds h m hh hmm
  rw [he]
  unfold msPerDay at h1
  simp only [addDays, atTime, dayNumber, msPerDay]
  omega

theorem atTime_some_getD (t : Int) (h m : Option Int) :
    atTime t (some (h.getD 9)) (some (m.getD 0)) = atTime t h m := by
  unfold atTime
  rw [hmOffset_some_getD]

theorem nextWeekly_some_getD (t : Int) (wd : DayOfWeek) (h m : Option Int) :
    nextWeekly t wd (some (h.getD 9)) (some (m.getD 0)) = nextWeekly t wd h m := by
  simp only [nextWeekly, atTime_some_getD]

theorem lastDayOfMonth_bounds (y m : Int) :
    28 ≤ lastDayOfMonth y m ∧ lastDayOfMonth y m ≤ 31 :=
  daysInMonth_bounds _ _

theorem clampDayOfMonth_eq (y m dom : Int) :
    clampDayOfMonth y m dom = max 1 (min (lastDayOfMonth y m) dom) := by
  simp only [clampDayOfMonth]
  rw [getDate_mkDate_zero, add_sub_cancel_right]

theorem clampDayOfMonth_ge_one (y m dom : Int) : 1 ≤ clampDayOfMonth y m dom := by
  rw [clampDayOfMonth_eq]
  omega

theorem clampDayOfMonth_eq_min (y m dom : Int) (hdom : 1 ≤ dom) :
    clampDayOfMonth y m dom = min (lastDayOfMonth y m) dom := by
  rw [clampDayOfMonth_eq]
  have hb := lastDayOfMonth_bounds y m
  omega

/-- Any day of a month comes before the nd-th day (nd ≥ 1) of the following month. -/
theorem dayNumber_lt_next_month_candidate (x nd : Int) (hnd : 1 ≤ nd) :
    dayNumber x < dayNumber (mkDate (getFullYear x) (getMonth x + 1) nd) := by
  have hv := civilFromDay_spec (dayNumber x)
  have hlt := dayNumberFromCivil_next_month _ hv.1 _ hnd
  rw [hv.2] at hlt
  rw [dayNumber_mkDate]
  exact hlt

/-- The monthly result is never before the normalized reference. -/
theorem nextMonthly_ge (t dom : Int) (h m : Option Int)
    (h0 : 0 ≤ hmOffset h m) (h1 : hmOffset h m < msPerDay) :
    atTime t h m ≤ nextMonthly t dom h m := by
  simp only [nextMonthly]
  split
  · omega
  · have hlt := dayNumber_lt_next_month_candidate (atTime t h m)
      (clampDayOfMonth (getFullYear (atTime t h m)) (getMonth (atTime t h m) + 1) dom)
      (clampDayOfMonth_ge_one _ _ dom)
    rw [dayNumber_atTime t h m h0 h1] at hlt
    unfold msPerDay at h1
    simp only [atTime, msPerDay] at hlt ⊢
    omega

/-- nextMonthly agrees with the spec description once the clamps are written
with lastDayOfMonth (requires dayOfMonth ≥ 1 as in the data model). -/
theorem nextMonthly_eq_monthlySpec (s : Schedule) (t : Int) (hdom : 1 ≤ s.dayOfMonth.getD 1) :
    nextMonthly t (s.dayOfMonth.getD 1) s.hour s.minute = monthlySpec s t := by
  simp only [nextMonthly, monthlySpec]
  rw [clampDayOfMonth_eq_min _ _ _ hdom, clampDayOfMonth_eq_min _ _ _ hdom]

theorem nextBiweekly_no_anchor (s : Schedule) (t : Int) (ha : s.biweeklyAnchorDate = none) :
    nextBiweekly t s = nextWeekly t (s.dayOfWeek.getD .friday) s.hour s.minute := by
  simp only [nextBiweekly, ha]
  rw [nextWeekly_some_getD]

theorem nextBiweekly_nonpos_anchor (s : Schedule) (t a : Int)
    (ha : s.biweeklyAnchorDate = some a) (hnp : ¬0 < a) :
    nextBiweekly t s = nextWeekly t (s.dayOfWeek.getD .friday) s.hour s.minute := by
  simp only [nextBiweekly, ha]
  rw [if_neg hnp, nextWeekly_some_getD]

theorem nextBiweekly_anchored (s : Schedule) (t a : Int)
    (ha : s.biweeklyAnchorDate = some a) (hpos : 0 < a) :
    nextBiweekly t s =
      (if atTime t s.hour s.minute ≤ atTime a s.hour s.minute then atTime a s.hour s.minute
       else atTime a s.hour s.minute +
         ((atTime t s.hour s.minute - atTime a s.hour s.minute + MS_14D - 1) / MS_14D) * MS_14D) := by
  simp only [nextBiweekly, ha]
  rw [if_pos hpos, atTime_some_getD, atTime_some_getD]

theorem nextWeekly_ge (t : Int) (wd : DayOfWeek) (h m : Option Int)
    (hh : HourWF h) (hmm : MinuteWF m) : atTime t h m ≤ nextWeekly t wd h m := by
  have hs := nextWeekly_spec t wd h m hh hmm
  rw [hs.1]
  have hd := hs.2.1
  simp only [addDays, msPerDay]
  omega

theorem nextBiweekly_ge (s : Schedule) (t : Int) (hh : HourWF s.hour)
    (hmm : MinuteWF s.minute) : atTime t s.hour s.minute ≤ nextBiweekly t s := by
  cases hanch : s.biweeklyAnchorDate with
  | none =>
      rw [nextBiweekly_no_anchor s t hanch]
      exact nextWeekly_ge t _ s.hour s.minute hh hmm
  | some a =>
      by_cases hpos : 0 < a
      · rw [nextBiweekly_anchored s t a hanch hpos]
        split
        · assumption
        · unfold MS_14D
          omega
      · rw [nextBiweekly_nonpos_anchor s t a hanch hpos]
        exact nextWeekly_ge t _ s.hour s.minute hh hmm

/-! ### Claims -/

/-- C1 (counterexample): for an anchored biweekly schedule the computed next
payday can lie strictly before the supplied reference instant.  Reference
1970-01-02 10:00, anchor 1970-01-02 00:00 (normalized to 09:00): the result
1970-01-02 09:00 is one hour in the past. -/
theorem computeNextPayDate_before_reference_counterexample :
    computeNextPayDateForSchedule
        (some ⟨.biweekly, none, none, some 86400000, none, none⟩) 122400000 =
      some 118800000 ∧ (118800000 : Int) < 122400000 := by
  constructor
  · decide
  · decide

/-- C1 (amended): for a well-formed schedule the computed next payday is never
before the reference instant normalized to the schedule's hour/minute, and for
the weekly frequency it is strictly after the supplied reference instant. -/
theorem computeNextPayDate_ge_normalized_reference (s : Schedule) (t r : Int)
    (hwf : ScheduleWF s) (hr : computeNextPayDateForSchedule (some s) t = some r) :
    atTime t s.hour s.minute ≤ r ∧ (s.payFrequency = .weekly → t < r) := by
  obtain ⟨hh, hmm⟩ := hwf
  cases hfreq : s.payFrequency with
  | monthly =>
      simp only [computeNextPayDateForSchedule, hfreq, Option.some.injEq] at hr
      subst hr
      obtain ⟨h0, h1⟩ := hmOffset_bounds s.hour s.minute hh hmm
      refine ⟨nextMonthly_ge t _ s.hour s.minute h0 h1, ?_⟩
      intro hw
      exact PayFrequency.noConfusion hw
  | weekly =>
      simp only [computeNextPayDateForSchedule, hfreq, Option.some.injEq] at hr
      subst hr
      exact ⟨nextWeekly_ge t _ s.hour s.minute hh hmm,
        fun _ => nextWeekly_gt t _ s.hour s.minute hh hmm⟩
  | biweekly =>
      simp only [computeNextPayDateForSchedule, hfreq, Option.some.injEq] at hr
      subst hr
      refine ⟨nextBiweekly_ge s t hh hmm, ?_⟩
      intro hw
      exact PayFrequency.noConfusion hw

/-- C1 witness: weekly Friday schedule, reference epoch (Thursday): the result
1970-01-02 09:00 is at/after the normalized reference and strictly after it. -/
theorem computeNextPayDate_ge_normalized_reference_witness :
    ScheduleWF ⟨.weekly, some .friday, none, none, none, none⟩ ∧
      (atTime 0 none none ≤ 118800000 ∧
        ((⟨.weekly, some .friday, none, none, none, none⟩ : Schedule).payFrequency =
            .weekly → (0 : Int) < 118800000)) :=
  ⟨by decide, computeNextPayDate_ge_normalized_reference
    ⟨.weekly, some .friday, none, none, none, none⟩ 0 118800000 (by decide) (by decide)⟩

/-- C2: a null schedule yields null, and a present schedule always yields a
result: the function is total with no error path. -/
theorem computeNextPayDate_total (t : Int) (s : Schedule) :
    computeNextPayDateForSchedule none t = none ∧
      (computeNextPayDateForSchedule (some s) t).isSome = true := by
  refine ⟨rfl, ?_⟩
  cases hf : s.payFrequency <;> simp [computeNextPayDateForSchedule, hf]

/-- C3: the weekly computation returns the normalized reference advanced by
delta = target - referenceWeekdayIndex days (plus 7 when delta ≤ 0) and, when
the reference day already is the target weekday, exactly 7 days. -/
theorem nextWeekly_delta_formula (s : Schedule) (t : Int) (hwf : ScheduleWF s)
    (hfreq : s.payFrequency = .weekly) :
    computeNextPayDateForSchedule (some s) t =
        some (addDays (atTime t s.hour s.minute)
          (weeklySpecDelta (s.dayOfWeek.getD .friday) t)) ∧
      (getDay t = dayNameToIndex (s.dayOfWeek.getD .friday) →
        weeklySpecDelta (s.dayOfWeek.getD .friday) t = 7) := by
  obtain ⟨hh, hmm⟩ := hwf
  have hs := nextWeekly_spec t (s.dayOfWeek.getD .friday) s.hour s.minute hh hmm
  constructor
  · simp only [computeNextPayDateForSchedule, hfreq]
    rw [hs.1]
  · intro htoday
    simp only [weeklySpecDelta, htoday]
    split <;> omega

/-- C3 witness: reference epoch (Thursday), target Thursday at 10:30 — the
result is exactly 7 days later. -/
theorem nextWeekly_delta_formula_witness :
    ScheduleWF ⟨.weekly, some .thursday, none, none, some 10, some 30⟩ ∧
      computeNextPayDateForSchedule
          (some ⟨.weekly, some .thursday, none, none, some 10, some 30⟩) 0 =
        some (addDays (atTime 0 (some 10) (some 30)) (weeklySpecDelta .thursday 0)) ∧
      weeklySpecDelta .thursday 0 = 7 := by
  have h := nextWeekly_delta_formula ⟨.weekly, some .thursday, none, none, some 10, some 30⟩ 0
    (by decide) rfl
  exact ⟨by decide, h.1, h.2 (by decide)⟩

/-- C4: the monthly computation clamps the configured day to the last valid day
of the reference month, keeps the candidate when strictly after the normalized
reference, and otherwise moves to the next month with the day re-clamped. -/
theorem nextMonthly_clamping_formula (s : Schedule) (t : Int)
    (hfreq : s.payFrequency = .monthly) (hdom : 1 ≤ s.dayOfMonth.getD 1) :
    computeNextPayDateForSchedule (some s) t = some (monthlySpec s t) := by
  simp only [computeNextPayDateForSchedule, hfreq]
  rw [nextMonthly_eq_monthlySpec s t hdom]

/-- C4 witness: monthly on the 15th from the epoch: 1970-01-15 09:00. -/
theorem nextMonthly_clamping_formula_witness :
    1 ≤ ((⟨.monthly, none, some 15, none, none, none⟩ : Schedule).dayOfMonth.getD 1) ∧
      computeNextPayDateForSchedule (some ⟨.monthly, none, some 15, none, none, none⟩) 0 =
        some (monthlySpec ⟨.monthly, none, some 15, none, none, none⟩ 0) ∧
      monthlySpec ⟨.monthly, none, some 15, none, none, none⟩ 0 = 1242000000 := by
  refine ⟨by decide, nextMonthly_clamping_formula _ 0 rfl (by decide), by decide⟩

/-- C6: a biweekly schedule whose anchor is absent or not positive computes
exactly the weekly result for dayOfWeek (default Friday) at the same hour/minute. -/
theorem nextBiweekly_without_anchor_eq_weekly (s : Schedule) (t : Int)
    (hfreq : s.payFrequency = .biweekly)
    (ha : ∀ a ∈ s.biweeklyAnchorDate, a ≤ 0) :
    computeNextPayDateForSchedule (some s) t =
      some (nextWeekly t (s.dayOfWeek.getD .friday) s.hour s.minute) := by
  simp only [computeNextPayDateForSchedule, hfreq]
  cases hanch : s.biweeklyAnchorDate with
  | none => rw [nextBiweekly_no_anchor s t hanch]
  | some a =>
      have hle : a ≤ 0 := ha a (by rw [Option.mem_def, hanch])
      rw [nextBiweekly_nonpos_anchor s t a hanch (by omega)]

/-- C6 witness: biweekly with a non-positive anchor behaves as weekly Friday. -/
theorem nextBiweekly_without_anchor_eq_weekly_witness :
    computeNextPayDateForSchedule (some ⟨.biweekly, none, none, some (-5), none, none⟩) 0 =
        some (nextWeekly 0 .friday none none) ∧
      nextWeekly 0 DayOfWeek.friday none none = 118800000 := by
  refine ⟨nextBiweekly_without_anchor_eq_weekly
    ⟨.biweekly, none, none, some (-5), none, none⟩ 0 rfl ?_, by decide⟩
  intro a ha
  rw [Option.mem_def, Option.some.injEq] at ha
  omega

/-- C5: for an anchored biweekly schedule, after normalizing anchor and
reference to the configured hour/minute, the result is the anchor when the
reference is at/before it, and otherwise the anchor advanced by
ceil(diff / 14 days) periods; in both cases it is the smallest anchor-aligned
occurrence at-or-after the normalized reference. -/
theorem nextBiweekly_anchor_alignment (s : Schedule) (t a : Int)
    (hfreq : s.payFrequency = .biweekly) (ha : s.biweeklyAnchorDate = some a)
    (hpos : 0 < a) :
    computeNextPayDateForSchedule (some s) t =
        some (if atTime t s.hour s.minute ≤ atTime a s.hour s.minute then
            atTime a s.hour s.minute
          else atTime a s.hour s.minute +
            ((atTime t s.hour s.minute - atTime a s.hour s.minute + MS_14D - 1) / MS_14D) *
              MS_14D) ∧
      ∀ r, computeNextPayDateForSchedule (some s) t = some r →
        atTime t s.hour s.minute ≤ r ∧
        (∃ j : Int, 0 ≤ j ∧ r = atTime a s.hour s.minute + j * MS_14D) ∧
        ∀ i : Int, 0 ≤ i →
          atTime t s.hour s.minute ≤ atTime a s.hour s.minute + i * MS_14D →
            r ≤ atTime a s.hour s.minute + i * MS_14D := by
  have he : computeNextPayDateForSchedule (some s) t = some (nextBiweekly t s) := by
    simp only [computeNextPayDateForSchedule, hfreq]
  rw [he, nextBiweekly_anchored s t a ha hpos]
  refine ⟨rfl, ?_⟩
  intro r hr
  rw [Option.some.injEq] at hr
  subst hr
  by_cases hle : atTime t s.hour s.minute ≤ atTime a s.hour s.minute
  · rw [if_pos hle]
    refine ⟨hle, ⟨0, le_refl 0, by ring⟩, ?_⟩
    intro i hi hiB
    unfold MS_14D
    omega
  · rw [if_neg hle]
    refine ⟨by unfold MS_14D; omega, ⟨_, by unfold MS_14D; omega, rfl⟩, ?_⟩
    intro i hi hiB
    unfold MS_14D at hiB ⊢
    omega

/-- C5 witness: anchor 1970-01-02, reference 1970-01-24 ~ 03:33: the result is
anchor + 2 periods = 1970-01-30 09:00, at/after the normalized reference. -/
theorem nextBiweekly_anchor_alignment_witness :
    computeNextPayDateForSchedule
        (some ⟨.biweekly, none, none, some 86400000, none, none⟩) 2000000000 =
      some 2538000000 ∧ atTime 2000000000 none none ≤ 2538000000 := by
  have h := nextBiweekly_anchor_alignment
    ⟨.biweekly, none, none, some 86400000, none, none⟩ 2000000000 86400000 rfl rfl (by decide)
  have h1 : computeNextPayDateForSchedule
      (some ⟨.biweekly, none, none, some 86400000, none, none⟩) 2000000000 =
        some 2538000000 := h.1.trans (by decide)
  exact ⟨h1, (h.2 2538000000 h1).1⟩

theorem timeOfDayMs_nextWeekly (t : Int) (wd : DayOfWeek) (h m : Option Int)
    (h0 : 0 ≤ hmOffset h m) (h1 : hmOffset h m < msPerDay) :
    timeOfDayMs (nextWeekly t wd h m) = hmOffset h m := by
  simp only [nextWeekly]
  exact timeOfDayMs_atTime _ h m h0 h1

/-- Every branch of the calculator produces an instant whose time of day is the
configured hour/minute offset. -/
theorem timeOfDayMs_compute (s : Schedule) (t r : Int) (hh : HourWF s.hour)
    (hmm : MinuteWF s.minute)
    (hr : computeNextPayDateForSchedule (some s) t = some r) :
    timeOfDayMs r = hmOffset s.hour s.minute := by
  obtain ⟨h0, h1⟩ := hmOffset_bounds s.hour s.minute hh hmm
  cases hfreq : s.payFrequency with
  | weekly =>
      simp only [computeNextPayDateForSchedule, hfreq, Option.some.injEq] at hr
      subst hr
      exact timeOfDayMs_nextWeekly t _ s.hour s.minute h0 h1
  | monthly =>
      simp only [computeNextPayDateForSchedule, hfreq, Option.some.injEq] at hr
      subst hr
      simp only [nextMonthly]
      split <;> exact timeOfDayMs_atTime _ s.hour s.minute h0 h1
  | biweekly =>
      simp only [computeNextPayDateForSchedule, hfreq, Option.some.injEq] at hr
      subst hr
      cases hanch : s.biweeklyAnchorDate with
      | none =>
          rw [nextBiweekly_no_anchor s t hanch]
          exact timeOfDayMs_nextWeekly t _ s.hour s.minute h0 h1
      | some a =>
          by_cases hpos : 0 < a
          · rw [nextBiweekly_anchored s t a hanch hpos]
            split
            · exact timeOfDayMs_atTime a s.hour s.minute h0 h1
            · have hA := timeOfDayMs_atTime a s.hour s.minute h0 h1
              unfold msPerDay at h1
              unfold timeOfDayMs msPerDay at hA
              unfold timeOfDayMs MS_14D msPerDay
              omega
          · rw [nextBiweekly_nonpos_anchor s t a hanch hpos]
            exact timeOfDayMs_nextWeekly t _ s.hour s.minute h0 h1

/-- C7: for a well-formed schedule, every computed next payday sits at the
configured hour and minute (defaults 9:00), on every branch including the
anchored-biweekly one. -/
theorem computeNextPayDate_time_of_day (s : Schedule) (t r : Int)
    (hwf : ScheduleWF s)
    (hr : computeNextPayDateForSchedule (some s) t = some r) :
    getHours r = s.hour.getD 9 ∧ getMinutes r = s.minute.getD 0 := by
  obtain ⟨hh, hmm⟩ := hwf
  have htod := timeOfDayMs_compute s t r hh hmm hr
  unfold getHours getMinutes
  rw [htod]
  cases hH : s.hour <;> cases hM : s.minute <;>
    rw [hH] at hh <;> rw [hM] at hmm <;>
      simp only [HourWF, MinuteWF] at hh hmm <;>
        simp only [hmOffset, hH, hM, Option.getD, msPerHour, msPerMinute] <;>
          omega

/-- C7 witness: anchored biweekly at 13:45; the result 1970-01-02 13:45 carries
hour 13 and minute 45. -/
theorem computeNextPayDate_time_of_day_witness :
    ScheduleWF ⟨.biweekly, none, none, some 86400000, some 13, some 45⟩ ∧
      getHours 135900000 = 13 ∧ getMinutes 135900000 = 45 := by
  have h := computeNextPayDate_time_of_day
    ⟨.biweekly, none, none, some 86400000, some 13, some 45⟩ 0 135900000
    (by decide) (by decide)
  exact ⟨by decide, h.1, h.2⟩

/-! ### Sorted-history infrastructure -/

theorem sortHistory_sorted (h : List PayDay) :
    List.Sorted (fun a b : PayDay => a.date ≤ b.date) (sortHistory h) := by
  haveI : IsTotal PayDay (fun a b => a.date ≤ b.date) := ⟨fun a b => le_total a.date b.date⟩
  haveI : IsTrans PayDay (fun a b => a.date ≤ b.date) := ⟨fun a b c hab hbc => le_trans hab hbc⟩
  exact List.sorted_insertionSort _ h

/-- Invariant: every employer's stored history is sorted ascending by date. -/
def HistoriesSorted (es : List Employer) : Prop :=
  ∀ e ∈ es, List.Sorted (fun a b : PayDay => a.date ≤ b.date) e.history

instance (es : List Employer) : Decidable (HistoriesSorted es) :=
  inferInstanceAs
    (Decidable (∀ e ∈ es, List.Sorted (fun a b : PayDay => a.date ≤ b.date) e.history))

theorem historiesSorted_map (es : List Employer) (f : Employer → Employer)
    (hf : ∀ e ∈ es, List.Sorted (fun a b : PayDay => a.date ≤ b.date) (f e).history) :
    HistoriesSorted (es.map f) := by
  intro e he
  rw [List.mem_map] at he
  obtain ⟨e0, he0, rfl⟩ := he
  exact hf e0 he0

/-- C8: nextPayDates holds one entry per employer whose schedule yields a
non-null payday (as a permutation of the per-employer computations), is sorted
ascending by instant, and nextSoonest is its head — the smallest entry — or
null when the list is empty. -/
theorem nextPayDates_sorted_and_soonest (es : List Employer) (now : Int) :
    (nextPayDates es now).Perm
        (es.filterMap fun e =>
          (computeNextPayDateForSchedule (some e.schedule) now).map fun d => (e.id, d)) ∧
      List.Sorted (fun a b : String × Int => a.2 ≤ b.2) (nextPayDates es now) ∧
      nextSoonest es now = (nextPayDates es now).head? ∧
      ∀ p, nextSoonest es now = some p → ∀ q ∈ nextPayDates es now, p.2 ≤ q.2 := by
  haveI : IsTotal (String × Int) (fun a b => a.2 ≤ b.2) := ⟨fun a b => le_total a.2 b.2⟩
  haveI : IsTrans (String × Int) (fun a b => a.2 ≤ b.2) :=
    ⟨fun a b c hab hbc => le_trans hab hbc⟩
  have hsort : List.Sorted (fun a b : String × Int => a.2 ≤ b.2) (nextPayDates es now) :=
    List.sorted_insertionSort _ _
  refine ⟨List.perm_insertionSort _ _, hsort, rfl, ?_⟩
  intro p hp q hq
  unfold nextSoonest at hp
  cases hL : nextPayDates es now with
  | nil =>
      rw [hL] at hp
      simp at hp
  | cons x xs =>
      rw [hL] at hp hq hsort
      rw [List.head?_cons, Option.some.injEq] at hp
      subst hp
      rw [List.sorted_cons] at hsort
      rcases List.mem_cons.mp hq with rfl | hq2
      · exact le_refl _
      · exact hsort.1 q hq2

def sampleEmployerA : Employer :=
  ⟨"a", "A", none, ⟨.weekly, some .friday, none, none, none, none⟩, ⟨.hourly, none, []⟩, []⟩

def sampleEmployerB : Employer :=
  ⟨"b", "B", none, ⟨.weekly, some .monday, none, none, none, none⟩, ⟨.hourly, none, []⟩, []⟩

def sampleStateAB : List Employer := [sampleEmployerA, sampleEmployerB]

/-- C8 witness: with a Friday employer and a Monday employer at the epoch,
nextSoonest is the Friday entry and it is at/before the Monday entry. -/
theorem nextPayDates_sorted_and_soonest_witness :
    nextSoonest sampleStateAB 0 = some ("a", 118800000) ∧
      (118800000 : Int) ≤ 378000000 :=
  ⟨by decide, (nextPayDates_sorted_and_soonest sampleStateAB 0).2.2.2
    ("a", 118800000) (by decide) ("b", 378000000) (by decide)⟩

/-- C9: clampDayOfMonth computes max(1, min(lastDayOfMonth, dom)); a dayOfMonth
≤ 0 is clamped up to 1, and a monthly schedule with such a value behaves as if
dayOfMonth were 1. -/
theorem clampDayOfMonth_clamps_up (y m dom t : Int) (h mi : Option Int) :
    clampDayOfMonth y m dom = max 1 (min (lastDayOfMonth y m) dom) ∧
      (dom ≤ 0 → clampDayOfMonth y m dom = 1 ∧
        nextMonthly t dom h mi = nextMonthly t 1 h mi) := by
  refine ⟨clampDayOfMonth_eq y m dom, ?_⟩
  intro hd
  have h1 : ∀ y2 m2 : Int, clampDayOfMonth y2 m2 dom = 1 := by
    intro y2 m2
    rw [clampDayOfMonth_eq]
    have := lastDayOfMonth_bounds y2 m2
    omega
  have h2 : ∀ y2 m2 : Int, clampDayOfMonth y2 m2 1 = 1 := by
    intro y2 m2
    rw [clampDayOfMonth_eq]
    have := lastDayOfMonth_bounds y2 m2
    omega
  refine ⟨h1 y m, ?_⟩
  simp only [nextMonthly, h1, h2]

/-- C9 witness at dayOfMonth = -5 on January 1970. -/
theorem clampDayOfMonth_clamps_up_witness :
    clampDayOfMonth 1970 0 (-5) = max 1 (min (lastDayOfMonth 1970 0) (-5)) ∧
      clampDayOfMonth 1970 0 (-5) = 1 ∧
      nextMonthly 0 (-5) none none = nextMonthly 0 1 none none := by
  have h := clampDayOfMonth_clamps_up 1970 0 (-5) 0 none none
  exact ⟨h.1, (h.2 (by decide)).1, (h.2 (by decide)).2⟩

/-- C10: each history-writing operation (addEmployer, updateEmployer, addPayday,
upsertPayday, setEmployerHistory) leaves every employer's history sorted
ascending by date, and the delete operations preserve the invariant, so every
reachable state has sorted histories. -/
theorem history_ops_preserve_sorted (es : List Employer) (hinv : HistoriesSorted es) :
    (∀ inp, HistoriesSorted (addEmployer es inp)) ∧
      (∀ id p, HistoriesSorted (updateEmployer es id p)) ∧
      (∀ id entry rep, HistoriesSorted (addPayday es id entry rep)) ∧
      (∀ id entry, HistoriesSorted (upsertPayday es id entry)) ∧
      (∀ id hist, HistoriesSorted (setEmployerHistory es id hist)) ∧
      (∀ id, HistoriesSorted (deleteEmployer es id)) ∧
      (∀ id d, HistoriesSorted (deletePaydayByDate es id d)) := by
  have haddp : ∀ id entry rep, HistoriesSorted (addPayday es id entry rep) := by
    intro id entry rep
    simp only [addPayday, mutateEmployer]
    refine historiesSorted_map es _ ?_
    intro e he
    by_cases hid : e.id = id
    · rw [if_pos hid]
      exact sortHistory_sorted _
    · rw [if_neg hid]
      exact hinv e he
  refine ⟨?_, ?_, haddp, fun id entry => haddp id entry true, ?_, ?_, ?_⟩
  · intro inp e he
    simp only [addEmployer] at he
    rcases List.mem_append.mp he with h | h
    · exact hinv e h
    · rw [List.mem_singleton] at h
      subst h
      exact sortHistory_sorted _
  · intro id p
    simp only [updateEmployer]
    refine historiesSorted_map es _ ?_
    intro e he
    by_cases hid : e.id = id
    · rw [if_pos hid]
      cases hp : p.history with
      | some hl =>
          simp only [hp]
          exact sortHistory_sorted _
      | none =>
          simp only [hp]
          exact hinv e he
    · rw [if_neg hid]
      exact hinv e he
  · intro id hist
    simp only [setEmployerHistory, mutateEmployer]
    refine historiesSorted_map es _ ?_
    intro e he
    by_cases hid : e.id = id
    · rw [if_pos hid]
      exact sortHistory_sorted _
    · rw [if_neg hid]
      exact hinv e he
  · intro id e he
    simp only [deleteEmployer] at he
    exact hinv e (List.mem_of_mem_filter he)
  · intro id d
    simp only [deletePaydayByDate, mutateEmployer]
    refine historiesSorted_map es _ ?_
    intro e he
    by_cases hid : e.id = id
    · rw [if_pos hid]
      exact (hinv e he).filter _
    · rw [if_neg hid]
      exact hinv e he

def sampleEmployerX : Employer :=
  ⟨"x", "X", none, ⟨.weekly, some .friday, none, none, none, none⟩, ⟨.hourly, none, []⟩,
    [⟨100, none, none, none, none⟩, ⟨200, none, none, none, none⟩]⟩

def sampleStateX : List Employer := [sampleEmployerX]

/-- C10 witness: a sorted one-employer state stays sorted after addPayday. -/
theorem history_ops_preserve_sorted_witness :
    HistoriesSorted sampleStateX ∧
      HistoriesSorted (addPayday sampleStateX "x" ⟨150, none, none, none, none⟩ false) :=
  ⟨by decide, (history_ops_preserve_sorted sampleStateX (by decide)).2.2.1
    "x" ⟨150, none, none, none, none⟩ false⟩

end WageWise
